import Mathlib

/-
Verification of the input-parsing and frequency-normalization pipeline of the
word-cloud generator (src/app.py).

The four pipeline functions are shallowly embedded:
  * `parse_frequency_input`  (app.py lines 62-114)
  * `process_raw_text`       (app.py lines 116-139)
  * `normalize_frequencies`  (app.py lines 141-151)
  * `apply_filters`          (app.py lines 153-172)

Modelling conventions:
  * Python floats are modelled as rationals; all weights exercised here are
    decimal/fraction literals whose arithmetic is exact.
  * Python dicts are modelled as association lists in insertion order; an
    update of an existing key keeps its position (CPython dict semantics).
  * Python exceptions are modelled by `Except PyErr`; the `try/except
    ValueError` of `parse_frequency_input` catches only `PyErr.valueError`,
    while `PyErr.zeroDivisionError` (raised by float division by zero)
    propagates, exactly as in CPython.
  * `str.strip`, the regex whitespace class, and `float(str)` are modelled
    over ASCII whitespace and plain decimal/exponent numerals; the `inf`,
    `nan` and underscore-digit-separator forms of `float` and non-ASCII
    space characters are not modelled (no claim depends on them).
-/

attribute [local semireducible] Rat.mul Rat.inv Rat.add Rat.sub Rat.ofScientific

namespace WC

/-- Whitespace as recognised by Python str.strip and the regex class
backslash-s, restricted to ASCII: space, tab, newline, carriage return,
vertical tab, form feed. -/
def isSpace (c : Char) : Bool :=
  c == ' ' || c == '\t' || c == '\n' || c == '\r' || c == '\x0b' || c == '\x0c'

/-- Drop leading whitespace (left half of Python str.strip). -/
def trimLeft (l : List Char) : List Char := l.dropWhile isSpace

/-- Drop trailing whitespace (right half of Python str.strip). -/
def trimRight : List Char → List Char
  | [] => []
  | c :: r =>
    match trimRight r with
    | [] => if isSpace c then [] else [c]
    | h :: t => c :: h :: t

/-- Python str.strip(): drop leading and trailing whitespace. -/
def pyStrip (l : List Char) : List Char := trimRight (trimLeft l)

/-- Value of a (most-significant-first) digit string. -/
def digitsToNat (l : List Char) : ℕ := l.foldl (fun a c => 10 * a + (c.toNat - 48)) 0

/-- Split an optional single leading sign off a character list; the Bool is
true when the sign was a minus. -/
def splitSign : List Char → Bool × List Char
  | '-' :: r => (true, r)
  | '+' :: r => (false, r)
  | l => (false, l)

/-- Drop an optional single leading plus or minus sign. -/
def dropSign : List Char → List Char
  | '-' :: r => r
  | '+' :: r => r
  | l => l

/-- Python error values relevant to this pipeline.  The parser's
try/except catches only ValueError; ZeroDivisionError propagates. -/
inductive PyErr
  | valueError
  | zeroDivisionError
  deriving DecidableEq

instance {ε α : Type} [DecidableEq ε] [DecidableEq α] : DecidableEq (Except ε α) := fun x y =>
  match x, y with
  | .ok a, .ok b => if h : a = b then isTrue (by rw [h]) else isFalse (by simp [h])
  | .error a, .error b => if h : a = b then isTrue (by rw [h]) else isFalse (by simp [h])
  | .ok _, .error _ => isFalse (by simp)
  | .error _, .ok _ => isFalse (by simp)

/-- Exponent suffix of a Python float literal: either nothing, or the letter
e/E followed by an optional sign and at least one digit, consuming the whole
remainder. -/
def parseExp (l : List Char) : Except PyErr ℤ :=
  match l with
  | [] => .ok 0
  | c :: r =>
    if c = 'e' ∨ c = 'E' then
      let (neg, r1) := splitSign r
      let ds := r1.takeWhile Char.isDigit
      let rest := r1.dropWhile Char.isDigit
      if ds ≠ [] ∧ rest = [] then
        .ok ((if neg then -1 else 1) * (digitsToNat ds : ℤ))
      else .error .valueError
    else .error .valueError

/-- Python float(str) on the decimal forms: optional surrounding whitespace,
optional sign, then either digits, digits.digits, .digits or digits.
(a trailing dot is accepted, as in Python), with an optional e/E exponent.
Result is exact as a rational.  Raises ValueError on anything else. -/
def pyFloat (l : List Char) : Except PyErr ℚ :=
  let t := pyStrip l
  let (neg, t1) := splitSign t
  let sgn : ℚ := if neg then -1 else 1
  let ip := t1.takeWhile Char.isDigit
  let r1 := t1.dropWhile Char.isDigit
  match r1 with
  | '.' :: r2 =>
    let fp := r2.takeWhile Char.isDigit
    let r3 := r2.dropWhile Char.isDigit
    if ip = [] ∧ fp = [] then .error .valueError
    else
      match parseExp r3 with
      | .ok e => .ok (sgn * ((digitsToNat ip : ℚ) + (digitsToNat fp : ℚ) / 10 ^ fp.length) * 10 ^ e)
      | .error err => .error err
  | _ =>
    if ip = [] then .error .valueError
    else
      match parseExp r1 with
      | .ok e => .ok (sgn * (digitsToNat ip : ℚ) * 10 ^ e)
      | .error err => .error err

/-- Python str.split(sep) with no maxsplit: split at every occurrence of a
one-character separator; the empty string yields one empty part. -/
def splitOnChar (sep : Char) : List Char → List (List Char)
  | [] => [[]]
  | c :: r =>
    match splitOnChar sep r with
    | [] => [[]]
    | h :: t => if c = sep then [] :: h :: t else (c :: h) :: t

/-- Python str.split(sep, 1) restricted to the case where sep occurs: the
part before the first occurrence and everything after it. -/
def splitFirstOn (sep : Char) : List Char → Option (List Char × List Char)
  | [] => none
  | c :: r =>
    if c = sep then some ([], r)
    else
      match splitFirstOn sep r with
      | none => none
      | some (a, b) => some (c :: a, b)

/-- Python re.split on one-or-more-whitespace with maxsplit 1: the part
before the first whitespace run and the part after that run; none when the
line contains no whitespace. -/
def splitFirstWs : List Char → Option (List Char × List Char)
  | [] => none
  | c :: r =>
    if isSpace c then some ([], r.dropWhile isSpace)
    else
      match splitFirstWs r with
      | none => none
      | some (a, b) => some (c :: a, b)

/-- Remove a single trailing percent sign if present. -/
def dropLastPct (l : List Char) : List Char :=
  match l.reverse with
  | '%' :: r => r.reverse
  | _ => l

/-- Last character is a digit. -/
def lastIsDigit (l : List Char) : Bool :=
  match l.getLast? with
  | some c => c.isDigit
  | none => false

/-- Full-string match of the second regex group of app.py line 73,
sign? digits* dot? digits+ ws* pct?: after stripping one optional sign, one
optional trailing percent and then trailing whitespace, the body must be a
nonempty run of digits containing at most one decimal point and ending in a
digit (exactly the language of the regex fragment). -/
def matchNumToken (l : List Char) : Bool :=
  let body := trimRight (dropLastPct (dropSign l))
  !body.isEmpty && body.all (fun c => c.isDigit || c == '.') &&
    decide (body.count '.' ≤ 1) && lastIsDigit body

/-- Search of the anchored pattern of app.py line 73 on a stripped line:
group one is lazy, so the match binds the shortest nonempty prefix that is
followed by a whitespace run whose remainder matches the numeric token up to
the end of the line.  The whitespace run is consumed greedily (the numeric
token can never start with whitespace).  Returns (group 1, group 2). -/
def primarySearch : List Char → List Char → Option (List Char × List Char)
  | _, [] => none
  | acc, c :: rest =>
    if isSpace c ∧ acc ≠ [] ∧ matchNumToken ((c :: rest).dropWhile isSpace) then
      some (acc.reverse, (c :: rest).dropWhile isSpace)
    else primarySearch (c :: acc) rest

/-- Fallback of app.py lines 76-82: split on the first tab if any, else on
the first colon if any, else on the first whitespace run; none when no
separator is found (then the line is discarded). -/
def fallbackSplit (line : List Char) : Option (List Char × List Char) :=
  if '\t' ∈ line then splitFirstOn '\t' line
  else if ':' ∈ line then splitFirstOn ':' line
  else splitFirstWs line

/-- Per-line term/weight extraction: the primary regex first, the legacy
fallback only when it fails (app.py lines 73-91). -/
def extractPair (line : List Char) : Option (List Char × List Char) :=
  match primarySearch [] line with
  | some p => some p
  | none => fallbackSplit line

/-- Python freq_str.replace percent-sign by nothing, then strip
(app.py line 96). -/
def stripPct (l : List Char) : List Char := pyStrip (l.filter (fun c => c != '%'))

/-- Ratio evaluation of app.py line 103: parse both parts as floats
(ValueError propagates from either) and divide; dividing by zero raises
ZeroDivisionError, as Python float division does. -/
def evalRatio (a b : List Char) : Except PyErr ℚ :=
  match pyFloat a with
  | .error e => .error e
  | .ok x =>
    match pyFloat b with
    | .error e => .error e
    | .ok y => if y = 0 then .error .zeroDivisionError else .ok (x / y)

/-- Raw weight string to numeric value (app.py lines 94-106): a string with
a percent sign is parsed after removing it and divided by 100 only when
greater than 1; else a string with a slash is parsed as numerator over
denominator (the split must give exactly two float-parsable parts, otherwise
ValueError); else plain float. -/
def evalWeight (s : List Char) : Except PyErr ℚ :=
  if '%' ∈ s then
    match pyFloat (stripPct s) with
    | .ok r => .ok (if 1 < r then r / 100 else r)
    | .error e => .error e
  else if '/' ∈ s then
    match splitOnChar '/' s with
    | [a, b] => evalRatio a b
    | _ => .error .valueError
  else pyFloat s

/-- CPython dict assignment on an insertion-ordered association list: an
existing key keeps its position and gets the new value, a new key is
appended. -/
def dictInsert (m : List (String × ℚ)) (k : String) (v : ℚ) : List (String × ℚ) :=
  if m.any (fun p => p.1 == k) then m.map (fun p => if p.1 == k then (p.1, v) else p)
  else m ++ [(k, v)]

/-- One iteration of the parsing loop (app.py lines 67-112): strip the line,
skip it when blank, extract a (term, raw weight) pair, evaluate the weight -
a ValueError skips the line, a ZeroDivisionError propagates - and store the
entry only when the weight is strictly positive. -/
def parseLine (m : List (String × ℚ)) (rawLine : List Char) : Except PyErr (List (String × ℚ)) :=
  let line := pyStrip rawLine
  if line = [] then .ok m
  else
    match extractPair line with
    | none => .ok m
    | some (w, fs) =>
      match evalWeight (pyStrip fs) with
      | .ok freq => .ok (if 0 < freq then dictInsert m (String.mk (pyStrip w)) freq else m)
      | .error .valueError => .ok m
      | .error .zeroDivisionError => .error .zeroDivisionError

/-- The line parser parse_frequency_input (app.py lines 62-114): strip the
text, split it on newlines and fold the per-line step over an initially
empty dict.  An uncaught exception aborts the whole loop. -/
def parse_frequency_input (text : String) : Except PyErr (List (String × ℚ)) :=
  List.foldlM parseLine [] (splitOnChar '\n' (pyStrip text.data))

/-- Character class of the tokenizer regex (app.py line 125): ASCII letters
and the Cyrillic alphabet including both yo variants. -/
def isClassAlpha (c : Char) : Bool :=
  (decide ('a' ≤ c) && decide (c ≤ 'z')) || (decide ('A' ≤ c) && decide (c ≤ 'Z')) ||
    (decide ('а' ≤ c) && decide (c ≤ 'я')) || (decide ('А' ≤ c) && decide (c ≤ 'Я')) ||
    c == 'ё' || c == 'Ё'

/-- Regex word character (the class backslash-w) restricted to the
characters this pipeline distinguishes: the tokenizer's alphabet, ASCII
digits and the underscore.  Letters outside these ranges are not
modelled. -/
def pyIsWordChar (c : Char) : Bool := isClassAlpha c || c.isDigit || c == '_'

/-- Python str.lower restricted to ASCII and Cyrillic letters (the only
cased characters this pipeline distinguishes). -/
def pyLower (c : Char) : Char :=
  if 'A' ≤ c ∧ c ≤ 'Z' then Char.ofNat (c.toNat + 32)
  else if 'А' ≤ c ∧ c ≤ 'Я' then Char.ofNat (c.toNat + 32)
  else if c = 'Ё' then 'ё'
  else c

/-- Emit a finished alphabetic run (held reversed) as a token when the regex
of app.py line 125 matches it: both flanks must be word boundaries and the
run must have length at least three.  A shorter sub-run can never match
instead, because its flank inside the run joins two word characters. -/
def flushRun (run : List Char) (startOk endOk : Bool) : List String :=
  if startOk && endOk && decide (3 ≤ run.length) then [String.mk run.reverse] else []

/-- Scanner equivalent to re.findall of the word-boundary-delimited
alphabetic-run regex (app.py line 125).  Arguments: remaining input, current
alphabetic run (reversed), whether the character before the run start was
not a word character (left boundary holds), and whether the previous
character was a word character (used when no run is open). -/
def scanAux : List Char → List Char → Bool → Bool → List String
  | [], run, startOk, _ => flushRun run startOk true
  | c :: rest, run, startOk, prevWord =>
    if isClassAlpha c then
      match run with
      | [] => scanAux rest [c] (!prevWord) true
      | _ :: _ => scanAux rest (c :: run) startOk true
    else
      flushRun run startOk (!pyIsWordChar c) ++ scanAux rest [] true (pyIsWordChar c)

/-- Tokens of a character list, as re.findall returns them. -/
def tokensOf (l : List Char) : List String := scanAux l [] true false

/-- Lowercased tokens surviving the stop-word filter
(app.py lines 122-128). -/
def surviving (text : String) (stop_words : List String) : List String :=
  (tokensOf (text.data.map pyLower)).filter (fun w => !stop_words.contains w)

/-- One step of collections.Counter construction: increment an existing
key in place or append a new key with count one. -/
def counterAdd (m : List (String × ℕ)) (w : String) : List (String × ℕ) :=
  if m.any (fun p => p.1 == w) then m.map (fun p => if p.1 == w then (p.1, p.2 + 1) else p)
  else m ++ [(w, 1)]

/-- collections.Counter of a word list, keys in first-occurrence order. -/
def counter (ws : List String) : List (String × ℕ) := ws.foldl counterAdd []

/-- Python max over a list (guarded to be nonempty at every use site):
fold the running maximum over the elements, keeping the earlier element on
ties, exactly as the builtin max does. -/
def pyMax {α : Type} [LinearOrder α] [Inhabited α] : List α → α
  | [] => default
  | x :: xs => xs.foldl (fun a b => if a < b then b else a) x

/-- The raw-text tokenizer process_raw_text (app.py lines 116-139):
lowercase, extract tokens, drop stop words, count, and divide every count by
the maximum count when any token survived.  The repeated subterms are the
code's local variables word_counts and max_count written out. -/
def process_raw_text (text : String) (stop_words : List String) : List (String × ℚ) :=
  if counter (surviving text stop_words) = [] then []
  else
    (counter (surviving text stop_words)).map
      (fun p => (p.1, (p.2 : ℚ) /
        ((pyMax (((counter (surviving text stop_words)).map (fun q => q.2)) : List ℕ) : ℕ) : ℚ)))

/-- The normalizer normalize_frequencies (app.py lines 141-151): an empty
map is returned unchanged; otherwise, when the maximum value exceeds one,
every value is divided by it, else the map is returned unchanged. -/
def normalize_frequencies (m : List (String × ℚ)) : List (String × ℚ) :=
  if m = [] then m
  else if 1 < pyMax (m.map (fun p => p.2)) then
    m.map (fun p => (p.1, p.2 / pyMax (m.map (fun q => q.2))))
  else m

/-- Insert an entry into a descending-sorted list, in front of the first
entry whose value is not larger: an element inserted this way goes before
every tie, which is stable because sortDesc inserts from the right. -/
def insertDesc (x : String × ℚ) : List (String × ℚ) → List (String × ℚ)
  | [] => [x]
  | y :: ys => if x.2 < y.2 then y :: insertDesc x ys else x :: y :: ys

/-- Python sorted(items, key value, reverse true): a stable sort descending
by the numeric component.  A stable sort by a fixed key is uniquely
determined (elements in key order, ties in original order), so this stable
insertion sort returns exactly the list the Python sort returns. -/
def sortDesc : List (String × ℚ) → List (String × ℚ)
  | [] => []
  | x :: xs => insertDesc x (sortDesc xs)

/-- Python list slicing up to an integer bound: a nonnegative bound keeps
the first m elements, a negative bound drops the last |m| elements. -/
def pySliceTo (l : List (String × ℚ)) (m : ℤ) : List (String × ℚ) :=
  if 0 ≤ m then l.take m.toNat else l.take (l.length - (-m).toNat)

/-- The filter/scale/cap stage apply_filters (app.py lines 153-172): keep
entries with value at least min_freq, return empty when none survives, scale
the rest, and when more than max_words remain keep the slice up to max_words
of the descending sort. -/
def apply_filters (m : List (String × ℚ)) (min_freq scale : ℚ) (max_words : ℤ) :
    List (String × ℚ) :=
  let filtered := m.filter (fun p => decide (min_freq ≤ p.2))
  if filtered = [] then []
  else
    let scaled := filtered.map (fun p => (p.1, p.2 * scale))
    if (scaled.length : ℤ) > max_words then pySliceTo (sortDesc scaled) max_words else scaled

/-- Modelled from the spec wording of section 4.4, for comparison with the
code: drop every entry with value strictly less than min_freq; if nothing
survives return an empty map immediately; multiply every surviving value by
scale; if the surviving count exceeds max_terms, sort descending by value
and keep only the top max_terms entries. -/
def apply_spec (m : List (String × ℚ)) (min_freq scale : ℚ) (max_terms : ℤ) :
    List (String × ℚ) :=
  let survivors := m.filter (fun p => decide (¬ p.2 < min_freq))
  if survivors = [] then []
  else
    let scaled := survivors.map (fun p => (p.1, p.2 * scale))
    if (scaled.length : ℤ) > max_terms then (sortDesc scaled).take max_terms.toNat else scaled

section MaxLemmas

variable {α : Type} [LinearOrder α]

lemma le_maxStep (a b : α) : a ≤ if a < b then b else a := by
  split
  · exact le_of_lt (by assumption)
  · exact le_refl a

lemma right_le_maxStep (a b : α) : b ≤ if a < b then b else a := by
  split
  · exact le_refl b
  · exact le_of_not_lt (by assumption)

lemma le_foldlMax (a : α) (l : List α) :
    a ≤ l.foldl (fun u v => if u < v then v else u) a := by
  induction l generalizing a with
  | nil => exact le_refl a
  | cons x xs ih =>
    rw [List.foldl_cons]
    exact le_trans (le_maxStep a x) (ih _)

lemma mem_le_foldlMax (l : List α) : ∀ a x : α, x ∈ l →
    x ≤ l.foldl (fun u v => if u < v then v else u) a := by
  induction l with
  | nil => intro a x h; cases h
  | cons y ys ih =>
    intro a x h
    rw [List.foldl_cons]
    rcases List.mem_cons.1 h with rfl | hy
    · exact le_trans (right_le_maxStep a x) (le_foldlMax _ ys)
    · exact ih _ x hy

lemma foldlMax_mem (l : List α) : ∀ a : α,
    l.foldl (fun u v => if u < v then v else u) a = a ∨
      l.foldl (fun u v => if u < v then v else u) a ∈ l := by
  induction l with
  | nil => intro a; left; rfl
  | cons x xs ih =>
    intro a
    rw [List.foldl_cons]
    rcases ih (if a < x then x else a) with h | h
    · by_cases hax : a < x
      · right
        rw [h, if_pos hax]
        exact List.mem_cons_self x xs
      · left
        rw [h, if_neg hax]
    · right
      exact List.mem_cons_of_mem x h

lemma pyMax_mem [Inhabited α] {l : List α} (h : l ≠ []) : pyMax l ∈ l := by
  cases l with
  | nil => exact absurd rfl h
  | cons x xs =>
    rcases foldlMax_mem xs x with h1 | h1
    · have hx : pyMax (x :: xs) = xs.foldl (fun u v => if u < v then v else u) x := rfl
      rw [hx, h1]
      exact List.mem_cons_self x xs
    · exact List.mem_cons_of_mem x h1

lemma le_pyMax [Inhabited α] {l : List α} {x : α} (h : x ∈ l) : x ≤ pyMax l := by
  cases l with
  | nil => cases h
  | cons y ys =>
    rcases List.mem_cons.1 h with rfl | hy
    · exact le_foldlMax x ys
    · exact mem_le_foldlMax ys y x hy

end MaxLemmas

lemma length_dropWhile_le (p : Char → Bool) (l : List Char) :
    (l.dropWhile p).length ≤ l.length := by
  induction l with
  | nil => exact Nat.le_refl 0
  | cons c r ih =>
    rw [List.dropWhile_cons]
    split
    · exact le_trans ih (Nat.le_succ _)
    · exact le_refl _

lemma dropWhile_dropWhile (p : Char → Bool) (l : List Char) :
    (l.dropWhile p).dropWhile p = l.dropWhile p := by
  induction l with
  | nil => rfl
  | cons c r ih =>
    rw [List.dropWhile_cons]
    by_cases h : p c
    · rw [if_pos h]
      exact ih
    · rw [if_neg h, List.dropWhile_cons, if_neg h]

lemma trimRight_trimRight (l : List Char) : trimRight (trimRight l) = trimRight l := by
  induction l with
  | nil => rfl
  | cons c r ih =>
    cases h : trimRight r with
    | nil =>
      by_cases hc : isSpace c = true
      · simp [trimRight, h, hc]
      · simp [trimRight, h, hc]
    | cons h2 t2 =>
      rw [h] at ih
      have hcr : trimRight (c :: r) = c :: h2 :: t2 := by
        simp [trimRight, h]
      rw [hcr]
      have hstep : trimRight (c :: h2 :: t2) =
          match trimRight (h2 :: t2) with
          | [] => if isSpace c = true then [] else [c]
          | x :: t => c :: x :: t := rfl
      rw [hstep, ih]

lemma dropWhile_trimRight (l : List Char) (hl : l.dropWhile isSpace = l) :
    (trimRight l).dropWhile isSpace = trimRight l := by
  cases l with
  | nil => rfl
  | cons c r =>
    have hc : isSpace c = false := by
      by_contra hcc
      have hc2 : isSpace c = true := by
        cases hx : isSpace c
        · exact absurd hx hcc
        · rfl
      rw [List.dropWhile_cons, if_pos hc2] at hl
      have := length_dropWhile_le isSpace r
      rw [hl] at this
      exact absurd this (by simp [Nat.lt_irrefl])
    cases h : trimRight r with
    | nil => simp [trimRight, h, hc]
    | cons h2 t2 => simp [trimRight, h, List.dropWhile_cons, hc]

lemma pyStrip_idem (l : List Char) : pyStrip (pyStrip l) = pyStrip l := by
  unfold pyStrip trimLeft
  have h1 : (l.dropWhile isSpace).dropWhile isSpace = l.dropWhile isSpace :=
    dropWhile_dropWhile _ _
  rw [dropWhile_trimRight (l.dropWhile isSpace) h1, trimRight_trimRight]

lemma dictInsert_mem {m : List (String × ℚ)} {k : String} {v : ℚ} {p : String × ℚ}
    (h : p ∈ dictInsert m k v) : p ∈ m ∨ p = (k, v) := by
  unfold dictInsert at h
  split at h
  · rcases List.mem_map.1 h with ⟨q, hq, hfq⟩
    by_cases hqk : (q.1 == k) = true
    · right
      rw [if_pos hqk] at hfq
      have hq1 : q.1 = k := by simpa using hqk
      rw [← hfq, hq1]
    · left
      rw [if_neg hqk] at hfq
      rw [← hfq]
      exact hq
  · rcases List.mem_append.1 h with h1 | h1
    · left; exact h1
    · right; simpa using h1

lemma parseLine_ok_sub {m m' : List (String × ℚ)} {line : List Char}
    (h : parseLine m line = .ok m') :
    ∀ p ∈ m', p ∈ m ∨ (String.mk (pyStrip p.1.data) = p.1 ∧ 0 < p.2) := by
  simp only [parseLine] at h
  split at h
  · simp only [Except.ok.injEq] at h
    subst h
    intro p hp
    exact Or.inl hp
  · split at h
    · simp only [Except.ok.injEq] at h
      subst h
      intro p hp
      exact Or.inl hp
    · split at h
      · rename_i freq heval
        simp only [Except.ok.injEq] at h
        subst h
        intro p hp
        split at hp
        · rename_i hfreq
          rcases dictInsert_mem hp with h1 | h1
          · exact Or.inl h1
          · right
            rw [h1]
            refine ⟨?_, hfreq⟩
            show String.mk (pyStrip (String.mk (pyStrip _)).data) = String.mk (pyStrip _)
            rw [show (String.mk (pyStrip _)).data = pyStrip _ from rfl, pyStrip_idem]
        · exact Or.inl hp
      · simp only [Except.ok.injEq] at h
        subst h
        intro p hp
        exact Or.inl hp
      · exact absurd h (by simp)

lemma foldlM_parseLine_sub : ∀ (lines : List (List Char)) (m0 m : List (String × ℚ)),
    List.foldlM parseLine m0 lines = .ok m →
    ∀ p ∈ m, p ∈ m0 ∨ (String.mk (pyStrip p.1.data) = p.1 ∧ 0 < p.2) := by
  intro lines
  induction lines with
  | nil =>
    intro m0 m h p hp
    rw [List.foldlM_nil] at h
    have hm : m0 = m := by simpa [pure, Except.pure] using h
    subst hm
    exact Or.inl hp
  | cons l ls ih =>
    intro m0 m h p hp
    rw [List.foldlM_cons] at h
    cases hpl : parseLine m0 l with
    | error e =>
      rw [hpl] at h
      simp [Bind.bind, Except.bind] at h
    | ok m1 =>
      rw [hpl] at h
      simp only [Bind.bind, Except.bind] at h
      rcases ih m1 m h p hp with h1 | h1
      · rcases parseLine_ok_sub hpl p h1 with h2 | h2
        · exact Or.inl h2
        · exact Or.inr h2
      · exact Or.inr h1

/-- C1: the claim says a division error while evaluating a fraction weight
token only skips that line and that parse never raises.  In the code the
try/except catches only ValueError, so the ZeroDivisionError raised by the
float division on the line A 1/0 propagates out of parse_frequency_input,
aborting the whole parse.  This theorem evaluates the code at that failing
input. -/
theorem C1_parse_raises_zero_division :
    parse_frequency_input "A 1/0" = .error .zeroDivisionError := by decide

/-- C2 counterexample: on the fallback path the code checks only that the
split produced two parts, never that they are non-empty after trimming, so
the line :5 stores an entry whose key is the empty string - contradicting
both halves of the claim. -/
theorem C2_counterexample_empty_key :
    parse_frequency_input ":5" = .ok [("", 5)] := by decide

/-- C2 amended: every key of a map returned by parse is a trimmed string
(stripping it again changes nothing), but it may be empty: the fallback
produces an entry whenever the split yields exactly two parts, so :5
contributes the entry with empty key and weight 5. -/
theorem C2_keys_trimmed :
    (∀ (text : String) (m : List (String × ℚ)), parse_frequency_input text = .ok m →
      ∀ p ∈ m, String.mk (pyStrip p.1.data) = p.1) ∧
    parse_frequency_input ":5" = .ok [("", 5)] := by
  constructor
  · intro text m h p hp
    unfold parse_frequency_input at h
    rcases foldlM_parseLine_sub _ _ _ h p hp with h1 | h1
    · exact absurd h1 (List.not_mem_nil p)
    · exact h1.1
  · decide

theorem C2_witness :
    String.mk (pyStrip (("a", (5 : ℚ))).1.data) = (("a", (5 : ℚ))).1 :=
  C2_keys_trimmed.1 "a 5" [("a", 5)] (by decide) ("a", 5) (by decide)

/-- C5: every value stored in a map returned by parse is strictly positive;
the code stores an entry only under the guard freq greater than zero. -/
theorem C5_parse_values_positive :
    ∀ (text : String) (m : List (String × ℚ)), parse_frequency_input text = .ok m →
      ∀ p ∈ m, 0 < p.2 := by
  intro text m h p hp
  unfold parse_frequency_input at h
  rcases foldlM_parseLine_sub _ _ _ h p hp with h1 | h1
  · exact absurd h1 (List.not_mem_nil p)
  · exact h1.2

theorem C5_witness : (0 : ℚ) < (("a", (5 : ℚ))).2 :=
  C5_parse_values_positive "a 5" [("a", 5)] (by decide) ("a", 5) (by decide)

/-- C6: a raw weight token containing a percent sign is parsed after the
sign is removed, and the result is divided by 100 exactly when it is
strictly greater than one; 50 percent gives one half, 0.5 percent also
gives one half, 1 percent gives one, and the full line Physics 50.40
percent parses to 0.504. -/
theorem C6_percent_rule :
    (∀ (s : List Char) (r : ℚ), '%' ∈ s → pyFloat (stripPct s) = .ok r →
      evalWeight s = .ok (if 1 < r then r / 100 else r)) ∧
    evalWeight "50%".data = .ok (1/2) ∧
    evalWeight "0.5%".data = .ok (1/2) ∧
    evalWeight "1%".data = .ok 1 ∧
    parse_frequency_input "Physics 50.40%" = .ok [("Physics", 0.504)] := by
  refine ⟨?_, by decide, by decide, by decide, by decide⟩
  intro s r hs hf
  unfold evalWeight
  rw [if_pos hs, hf]

theorem C6_witness :
    evalWeight "50%".data = .ok (if 1 < (50 : ℚ) then 50 / 100 else 50) :=
  C6_percent_rule.1 "50%".data 50 (by decide) (by decide)

/-- C9: a raw weight token containing a slash and no percent sign is
accepted only as a ratio of exactly two float-parsable tokens with nonzero
denominator, and then evaluates to numerator divided by denominator; the
line A 1/4 parses to one quarter, and lines with two slashes or non-numeric
parts are dropped while the remaining lines still parse. -/
theorem C9_fraction_rule :
    (∀ (s : List Char) (v : ℚ), '/' ∈ s → ¬ ('%' ∈ s) → evalWeight s = .ok v →
      ∃ a b x y, splitOnChar '/' s = [a, b] ∧ pyFloat a = .ok x ∧ pyFloat b = .ok y ∧
        y ≠ 0 ∧ v = x / y) ∧
    parse_frequency_input "A 1/4" = .ok [("A", 1/4)] ∧
    parse_frequency_input "A 1/4\nB 1/2/3\nC x/y\nD 2/4" = .ok [("A", 1/4), ("D", 1/2)] := by
  refine ⟨?_, by decide, by decide⟩
  intro s v hs hns h
  unfold evalWeight at h
  rw [if_neg hns, if_pos hs] at h
  cases hsp : splitOnChar '/' s with
  | nil =>
    rw [hsp] at h
    simp at h
  | cons a t =>
    cases t with
    | nil =>
      rw [hsp] at h
      simp at h
    | cons b t2 =>
      cases t2 with
      | nil =>
        rw [hsp] at h
        replace h : evalRatio a b = .ok v := h
        unfold evalRatio at h
        cases hfa : pyFloat a with
        | error e =>
          rw [hfa] at h
          simp at h
        | ok x =>
          rw [hfa] at h
          cases hfb : pyFloat b with
          | error e =>
            rw [hfb] at h
            simp at h
          | ok y =>
            rw [hfb] at h
            replace h : (if y = 0 then Except.error PyErr.zeroDivisionError
              else Except.ok (x / y)) = Except.ok v := h
            by_cases hy : y = 0
            · rw [if_pos hy] at h
              simp at h
            · rw [if_neg hy] at h
              simp only [Except.ok.injEq] at h
              exact ⟨a, b, x, y, rfl, hfa, hfb, hy, h.symm⟩
      | cons c t3 =>
        rw [hsp] at h
        simp at h

theorem C9_witness :
    ∃ a b x y, splitOnChar '/' "1/4".data = [a, b] ∧ pyFloat a = .ok x ∧
      pyFloat b = .ok y ∧ y ≠ 0 ∧ (1/4 : ℚ) = x / y :=
  C9_fraction_rule.1 "1/4".data (1/4) (by decide) (by decide) (by decide)

lemma pySliceTo_nonneg {mt : ℤ} (h : 0 ≤ mt) (l : List (String × ℚ)) :
    pySliceTo l mt = l.take mt.toNat := by
  unfold pySliceTo
  rw [if_pos h]

lemma length_insertDesc (x : String × ℚ) (l : List (String × ℚ)) :
    (insertDesc x l).length = l.length + 1 := by
  induction l with
  | nil => rfl
  | cons y ys ih =>
    unfold insertDesc
    split
    · simp [ih]
    · rfl

lemma length_sortDesc (l : List (String × ℚ)) : (sortDesc l).length = l.length := by
  induction l with
  | nil => rfl
  | cons x xs ih =>
    show (insertDesc x (sortDesc xs)).length = (x :: xs).length
    rw [length_insertDesc, ih]
    rfl

/-- C7: apply_filters performs exactly the steps the spec prescribes, in
order; this is stated as extensional equality with apply_spec, the
definition transcribed from the spec wording (inclusive min_freq boundary,
early empty return before scaling, scaling, then capping to the top
max_terms of the descending sort only when the count exceeds max_terms),
for every nonnegative max_terms, together with the two boundary examples of
the spec: the cap example and the inclusive-threshold example. -/
theorem C7_apply_filters_spec :
    (∀ (m : List (String × ℚ)) (mn sc : ℚ) (mt : ℤ), 0 ≤ mt →
      apply_filters m mn sc mt = apply_spec m mn sc mt) ∧
    apply_filters [("a", 1), ("b", 0.9), ("c", 0.8)] 0 2 2 = [("a", 2), ("b", 1.8)] ∧
    apply_filters [("a", 0.5), ("b", 0.4)] 0.5 1 10 = [("a", 0.5)] := by
  refine ⟨?_, by decide, by decide⟩
  intro m mn sc mt hmt
  simp only [apply_filters, apply_spec]
  have hfil : m.filter (fun p => decide (mn ≤ p.2)) =
      m.filter (fun p => decide (¬ p.2 < mn)) :=
    List.filter_congr (fun x _ => decide_eq_decide.2 not_lt.symm)
  rw [← hfil, pySliceTo_nonneg hmt]

theorem C7_witness :
    apply_filters [("a", 1), ("b", 0.9), ("c", 0.8)] 0 2 2 =
      apply_spec [("a", 1), ("b", 0.9), ("c", 0.8)] 0 2 2 :=
  C7_apply_filters_spec.1 [("a", 1), ("b", 0.9), ("c", 0.8)] 0 2 2 (by decide)

/-- C4 counterexample: the claim says apply called with a negative
max_terms raises; the code does not validate max_words at all, and the
Python slice with a negative bound silently truncates instead, so the call
returns a value (here the empty map) and no error is ever raised. -/
theorem C4_counterexample_negative_cap :
    apply_filters [("a", 1)] 0 1 (-1) = [] := by decide

/-- C4 amended: apply with a negative max_terms does not raise; whenever
any entry survives the threshold the cap branch is taken (the count always
exceeds a negative bound) and the Python slice keeps all but the last
abs max_terms entries of the descending sort, so the result length is the
survivor count minus abs max_terms, truncated at zero. -/
theorem C4_negative_cap_truncates :
    ∀ (m : List (String × ℚ)) (mn sc : ℚ) (mt : ℤ), mt < 0 →
      (apply_filters m mn sc mt).length =
        (m.filter (fun p => decide (mn ≤ p.2))).length - (-mt).toNat := by
  intro m mn sc mt hmt
  simp only [apply_filters]
  split
  · rename_i hfe
    rw [hfe]
    simp
  · split
    · unfold pySliceTo
      rw [if_neg (not_le.2 hmt), List.length_take, length_sortDesc, List.length_map]
      exact min_eq_left (Nat.sub_le _ _)
    · rename_i hfe hlen
      exact absurd (lt_of_lt_of_le hmt (Int.natCast_nonneg _)) hlen

theorem C4_witness : (apply_filters [("a", 1), ("b", 2)] 0 1 (-1)).length = 1 := by
  rw [C4_negative_cap_truncates [("a", 1), ("b", 2)] 0 1 (-1) (by decide)]
  decide

lemma normalize_eq_of_le {m : List (String × ℚ)} (h : pyMax (m.map (fun p => p.2)) ≤ 1) :
    normalize_frequencies m = m := by
  unfold normalize_frequencies
  by_cases hm : m = []
  · rw [if_pos hm]
  · rw [if_neg hm, if_neg (not_lt.2 h)]

lemma normalize_eq_map_of_lt {m : List (String × ℚ)}
    (h : 1 < pyMax (m.map (fun p => p.2))) :
    normalize_frequencies m =
      m.map (fun p => (p.1, p.2 / pyMax (m.map (fun q => q.2)))) := by
  unfold normalize_frequencies
  by_cases hm : m = []
  · exfalso
    rw [hm] at h
    exact absurd h (by decide)
  · rw [if_neg hm, if_pos h]

lemma pyMax_map_div_eq_one {m : List (String × ℚ)} (hm : m ≠ [])
    (hpos : 0 < pyMax (m.map (fun p => p.2))) :
    pyMax ((m.map (fun p => (p.1, p.2 / pyMax (m.map (fun q => q.2))))).map
      (fun p => p.2)) = 1 := by
  have hmm : m.map (fun p => p.2) ≠ [] := by simpa using hm
  have hMmem : pyMax (m.map (fun p => p.2)) ∈ m.map (fun p => p.2) := pyMax_mem hmm
  have hcomp : (m.map (fun p => (p.1, p.2 / pyMax (m.map (fun q => q.2))))).map
      (fun p => p.2) =
      (m.map (fun p => p.2)).map (fun v => v / pyMax (m.map (fun q => q.2))) := by
    simp [List.map_map]
  rw [hcomp]
  have hne2 : (m.map (fun p => p.2)).map
      (fun v => v / pyMax (m.map (fun q => q.2))) ≠ [] := by simpa using hm
  apply le_antisymm
  · rcases List.mem_map.1 (pyMax_mem hne2) with ⟨v, hv, hveq⟩
    rw [← hveq]
    exact (div_le_one hpos).2 (le_pyMax hv)
  · have h1mem : pyMax (m.map (fun p => p.2)) / pyMax (m.map (fun p => p.2)) ∈
        (m.map (fun p => p.2)).map (fun v => v / pyMax (m.map (fun q => q.2))) :=
      List.mem_map.2 ⟨pyMax (m.map (fun p => p.2)), hMmem, rfl⟩
    have hle := le_pyMax h1mem
    rwa [div_self (ne_of_gt hpos)] at hle

lemma map_scale_lt_iff {m : List (String × ℚ)} {c : ℚ} (hc : 0 < c)
    (hn : normalize_frequencies m = m.map (fun p => (p.1, p.2 * c))) :
    ∀ i j : ℕ, i < m.length → j < m.length →
      (((normalize_frequencies m)[i]!).2 < ((normalize_frequencies m)[j]!).2 ↔
        (m[i]!).2 < (m[j]!).2) := by
  intro i j hi hj
  rw [hn]
  have hi2 : i < (m.map (fun p => (p.1, p.2 * c))).length := by simpa using hi
  have hj2 : j < (m.map (fun p => (p.1, p.2 * c))).length := by simpa using hj
  rw [getElem!_pos (m.map (fun p => (p.1, p.2 * c))) i hi2,
    getElem!_pos (m.map (fun p => (p.1, p.2 * c))) j hj2,
    getElem!_pos m i hi, getElem!_pos m j hj]
  rw [List.getElem_map, List.getElem_map]
  exact mul_lt_mul_right hc

/-- C8: normalize returns the map unchanged when it is empty or its maximum
value is at most one; when the maximum exceeds one it divides every value
by that maximum and the new maximum is exactly one; it is idempotent; and
it is a pure rescaling by a strictly positive constant, hence it preserves
the strict order of any two values (stated position-wise). -/
theorem C8_normalize_props :
    ∀ m : List (String × ℚ),
      (pyMax (m.map (fun p => p.2)) ≤ 1 → normalize_frequencies m = m) ∧
      (m ≠ [] → 1 < pyMax (m.map (fun p => p.2)) →
        normalize_frequencies m =
          m.map (fun p => (p.1, p.2 / pyMax (m.map (fun q => q.2)))) ∧
        pyMax ((normalize_frequencies m).map (fun p => p.2)) = 1) ∧
      normalize_frequencies (normalize_frequencies m) = normalize_frequencies m ∧
      (∃ c : ℚ, 0 < c ∧ normalize_frequencies m = m.map (fun p => (p.1, p.2 * c))) ∧
      (∀ i j : ℕ, i < m.length → j < m.length →
        (((normalize_frequencies m)[i]!).2 < ((normalize_frequencies m)[j]!).2 ↔
          (m[i]!).2 < (m[j]!).2)) := by
  intro m
  have hscale : ∃ c : ℚ, 0 < c ∧
      normalize_frequencies m = m.map (fun p => (p.1, p.2 * c)) := by
    by_cases hlt : 1 < pyMax (m.map (fun p => p.2))
    · refine ⟨(pyMax (m.map (fun p => p.2)))⁻¹, inv_pos.2 (lt_trans zero_lt_one hlt), ?_⟩
      rw [normalize_eq_map_of_lt hlt]
      simp [div_eq_mul_inv]
    · refine ⟨1, zero_lt_one, ?_⟩
      rw [normalize_eq_of_le (not_lt.1 hlt)]
      simp
  have hidem : normalize_frequencies (normalize_frequencies m) =
      normalize_frequencies m := by
    by_cases hlt : 1 < pyMax (m.map (fun p => p.2))
    · have hm : m ≠ [] := by
        intro he
        rw [he] at hlt
        exact absurd hlt (by decide)
      have hone : pyMax ((normalize_frequencies m).map (fun p => p.2)) = 1 := by
        rw [normalize_eq_map_of_lt hlt]
        exact pyMax_map_div_eq_one hm (lt_trans zero_lt_one hlt)
      exact normalize_eq_of_le (le_of_eq hone)
    · have h := normalize_eq_of_le (not_lt.1 hlt)
      rw [h]
      exact h
  refine ⟨fun h => normalize_eq_of_le h,
    fun hm hlt => ⟨normalize_eq_map_of_lt hlt, ?_⟩, hidem, hscale, ?_⟩
  · rw [normalize_eq_map_of_lt hlt]
    exact pyMax_map_div_eq_one hm (lt_trans zero_lt_one hlt)
  · rcases hscale with ⟨c, hc, hn⟩
    exact map_scale_lt_iff hc hn

theorem C8_witness :
    normalize_frequencies [("a", (801 : ℚ)), ("b", 400.5)] = [("a", 1), ("b", 0.5)] ∧
    pyMax ((normalize_frequencies [("a", (801 : ℚ)), ("b", 400.5)]).map
      (fun p => p.2)) = 1 := by
  have h := (C8_normalize_props [("a", 801), ("b", 400.5)]).2.1 (by decide) (by decide)
  refine ⟨?_, h.2⟩
  rw [h.1]
  decide

lemma flushRun_tokens {run : List Char} {so eo : Bool} {t : String}
    (hrun : ∀ c ∈ run, isClassAlpha c = true) (ht : t ∈ flushRun run so eo) :
    3 ≤ t.data.length ∧ ∀ c ∈ t.data, isClassAlpha c = true := by
  unfold flushRun at ht
  split at ht
  · rename_i hcond
    simp only [List.mem_singleton] at ht
    subst ht
    have hlen : 3 ≤ run.length := by
      simp only [Bool.and_eq_true, decide_eq_true_eq] at hcond
      exact hcond.2
    constructor
    · show 3 ≤ run.reverse.length
      rw [List.length_reverse]
      exact hlen
    · intro c hc
      exact hrun c (List.mem_reverse.1 hc)
  · simp at ht

lemma scanAux_tokens :
    ∀ (l run : List Char) (so pw : Bool), (∀ c ∈ run, isClassAlpha c = true) →
      ∀ t ∈ scanAux l run so pw,
        3 ≤ t.data.length ∧ ∀ c ∈ t.data, isClassAlpha c = true := by
  intro l
  induction l with
  | nil =>
    intro run so pw hrun t ht
    exact flushRun_tokens hrun ht
  | cons c rest ih =>
    intro run so pw hrun t ht
    unfold scanAux at ht
    by_cases hc : isClassAlpha c = true
    · rw [if_pos hc] at ht
      cases run with
      | nil =>
        replace ht : t ∈ scanAux rest [c] (!pw) true := ht
        refine ih [c] _ _ ?_ t ht
        intro x hx
        rcases List.mem_singleton.1 hx with rfl
        exact hc
      | cons r0 rs =>
        replace ht : t ∈ scanAux rest (c :: r0 :: rs) so true := ht
        refine ih _ _ _ ?_ t ht
        intro x hx
        rcases List.mem_cons.1 hx with rfl | hx2
        · exact hc
        · exact hrun x hx2
    · rw [if_neg hc] at ht
      rcases List.mem_append.1 ht with h1 | h1
      · exact flushRun_tokens hrun h1
      · refine ih [] _ _ ?_ t h1
        intro x hx
        cases hx

lemma tokensOf_tokens {l : List Char} {t : String} (ht : t ∈ tokensOf l) :
    3 ≤ t.data.length ∧ ∀ c ∈ t.data, isClassAlpha c = true :=
  scanAux_tokens l [] true false (by intro c hc; cases hc) t ht

lemma counterAdd_ne_nil (m : List (String × ℕ)) (w : String) : counterAdd m w ≠ [] := by
  unfold counterAdd
  split
  · rename_i hany
    intro hmap
    rw [List.map_eq_nil_iff] at hmap
    rw [hmap] at hany
    simp at hany
  · simp

lemma foldl_counterAdd_ne_nil : ∀ (ws : List String) (m : List (String × ℕ)), m ≠ [] →
    ws.foldl counterAdd m ≠ [] := by
  intro ws
  induction ws with
  | nil =>
    intro m hm
    rw [List.foldl_nil]
    exact hm
  | cons w ws2 ih =>
    intro m hm
    rw [List.foldl_cons]
    exact ih _ (counterAdd_ne_nil m w)

lemma counter_eq_nil_iff (ws : List String) : counter ws = [] ↔ ws = [] := by
  constructor
  · intro h
    cases ws with
    | nil => rfl
    | cons w ws2 =>
      exfalso
      unfold counter at h
      rw [List.foldl_cons] at h
      exact foldl_counterAdd_ne_nil ws2 _ (counterAdd_ne_nil [] w) h
  · intro h
    rw [h]
    rfl

lemma counterAdd_pos {m : List (String × ℕ)} {w : String}
    (hm : ∀ p ∈ m, 1 ≤ p.2) : ∀ p ∈ counterAdd m w, 1 ≤ p.2 := by
  intro p hp
  unfold counterAdd at hp
  split at hp
  · rcases List.mem_map.1 hp with ⟨q, hq, hfq⟩
    by_cases hqw : (q.1 == w) = true
    · rw [if_pos hqw] at hfq
      rw [← hfq]
      exact Nat.le_add_left 1 q.2
    · rw [if_neg hqw] at hfq
      rw [← hfq]
      exact hm q hq
  · rcases List.mem_append.1 hp with h1 | h1
    · exact hm p h1
    · rcases List.mem_singleton.1 h1 with rfl
      exact le_refl 1

lemma counter_pos {ws : List String} : ∀ p ∈ counter ws, 1 ≤ p.2 := by
  have hgen : ∀ (l : List String) (m : List (String × ℕ)),
      (∀ p ∈ m, 1 ≤ p.2) → ∀ p ∈ l.foldl counterAdd m, 1 ≤ p.2 := by
    intro l
    induction l with
    | nil =>
      intro m hm p hp
      rw [List.foldl_nil] at hp
      exact hm p hp
    | cons w ws2 ih =>
      intro m hm p hp
      rw [List.foldl_cons] at hp
      exact ih _ (counterAdd_pos hm) p hp
  exact hgen ws [] (by intro p hp; cases hp)

lemma counterAdd_keys {m : List (String × ℕ)} {w : String} {p : String × ℕ}
    (hp : p ∈ counterAdd m w) : (∃ q ∈ m, q.1 = p.1) ∨ p.1 = w := by
  unfold counterAdd at hp
  split at hp
  · rcases List.mem_map.1 hp with ⟨q, hq, hfq⟩
    left
    refine ⟨q, hq, ?_⟩
    by_cases hqw : (q.1 == w) = true
    · rw [if_pos hqw] at hfq
      rw [← hfq]
    · rw [if_neg hqw] at hfq
      rw [← hfq]
  · rcases List.mem_append.1 hp with h1 | h1
    · exact Or.inl ⟨p, h1, rfl⟩
    · right
      rcases List.mem_singleton.1 h1 with rfl
      rfl

lemma counter_keys {ws : List String} {p : String × ℕ} (hp : p ∈ counter ws) :
    p.1 ∈ ws := by
  have hgen : ∀ (l : List String) (m : List (String × ℕ)) (p : String × ℕ),
      p ∈ l.foldl counterAdd m → (∃ q ∈ m, q.1 = p.1) ∨ p.1 ∈ l := by
    intro l
    induction l with
    | nil =>
      intro m p hp2
      rw [List.foldl_nil] at hp2
      exact Or.inl ⟨p, hp2, rfl⟩
    | cons w ws2 ih =>
      intro m p hp2
      rw [List.foldl_cons] at hp2
      rcases ih _ p hp2 with ⟨q, hq, hqp⟩ | h1
      · rcases counterAdd_keys hq with ⟨q2, hq2, hq2q⟩ | hqw
        · exact Or.inl ⟨q2, hq2, by rw [hq2q, hqp]⟩
        · right
          rw [← hqp, hqw]
          exact List.mem_cons_self _ _
      · exact Or.inr (List.mem_cons_of_mem w h1)
  rcases hgen ws [] p hp with ⟨q, hq, _⟩ | h
  · cases hq
  · exact h

/-- C3 counterexample: the claim says an alphabetic run directly adjacent
to a digit, such as cat in cat5, is still extracted; the tokenizer regex is
delimited by word boundaries and a digit is a word character, so no
boundary exists between t and 5 and nothing at all is extracted from
cat5. -/
theorem C3_counterexample_digit_adjacent :
    process_raw_text "cat5" [] = [] := by decide

/-- C3 amended: the tokenizer extracts maximal alphabetic runs of length at
least three only when both flanks are word boundaries, so a run adjacent to
a digit or underscore is dropped entirely rather than extracted; every
produced key is a token of length at least three consisting only of class
letters, cat5 yields nothing, and in cat, dog5; bird the tokens cat and
bird survive while dog is blocked by the adjacent digit. -/
theorem C3_tokens_amended :
    (∀ (text : String) (stops : List String) (p : String × ℚ),
      p ∈ process_raw_text text stops →
        3 ≤ p.1.data.length ∧ ∀ c ∈ p.1.data, isClassAlpha c = true) ∧
    process_raw_text "cat5" [] = [] ∧
    process_raw_text "cat, dog5; bird" [] = [("cat", 1), ("bird", 1)] := by
  refine ⟨?_, by decide, by decide⟩
  intro text stops p hp
  by_cases hc : counter (surviving text stops) = []
  · unfold process_raw_text at hp
    rw [if_pos hc] at hp
    cases hp
  · unfold process_raw_text at hp
    rw [if_neg hc] at hp
    rcases List.mem_map.1 hp with ⟨q, hq, hfq⟩
    have hkey : q.1 ∈ surviving text stops := counter_keys hq
    have htok : q.1 ∈ tokensOf (text.data.map pyLower) :=
      (List.mem_filter.1 hkey).1
    have hprop := tokensOf_tokens htok
    rw [← hfq]
    exact hprop

theorem C3_witness :
    3 ≤ (("cat", (1 : ℚ))).1.data.length ∧
      ∀ c ∈ (("cat", (1 : ℚ))).1.data, isClassAlpha c = true :=
  C3_tokens_amended.1 "cat, dog5; bird" [] ("cat", 1) (by decide)

/-- C10: the tokenizer output is empty exactly when no token survives the
stop-word filter; when some token survives, every value lies in the
half-open interval from zero exclusive to one inclusive, and some entry
(the most frequent token) has value exactly one. -/
theorem C10_process_values :
    ∀ (text : String) (stops : List String),
      (process_raw_text text stops = [] ↔ surviving text stops = []) ∧
      (∀ p ∈ process_raw_text text stops, 0 < p.2 ∧ p.2 ≤ 1) ∧
      (process_raw_text text stops ≠ [] →
        ∃ p ∈ process_raw_text text stops, p.2 = 1) := by
  intro text stops
  by_cases hc : counter (surviving text stops) = []
  case pos =>
    have hpe : process_raw_text text stops = [] := by
      unfold process_raw_text
      rw [if_pos hc]
    refine ⟨?_, ?_, ?_⟩
    · rw [hpe]
      constructor
      · intro _
        exact (counter_eq_nil_iff _).1 hc
      · intro _
        rfl
    · rw [hpe]
      intro p hp
      cases hp
    · intro h
      exact absurd hpe h
  case neg =>
    have hmape : process_raw_text text stops =
        (counter (surviving text stops)).map
          (fun p => (p.1, (p.2 : ℚ) /
            ((pyMax (((counter (surviving text stops)).map (fun q => q.2)) : List ℕ) : ℕ) : ℚ))) := by
      unfold process_raw_text
      rw [if_neg hc]
    have hMmem : pyMax ((counter (surviving text stops)).map (fun q => q.2)) ∈
        (counter (surviving text stops)).map (fun q => q.2) :=
      pyMax_mem (by simpa using hc)
    rcases List.mem_map.1 hMmem with ⟨qM, hqM, hqMeq⟩
    have hM1 : 1 ≤ pyMax ((counter (surviving text stops)).map (fun q => q.2)) := by
      rw [← hqMeq]
      exact counter_pos qM hqM
    have hMpos : (0 : ℚ) <
        ((pyMax (((counter (surviving text stops)).map (fun q => q.2)) : List ℕ) : ℕ) : ℚ) :=
      Nat.cast_pos.2 (lt_of_lt_of_le Nat.zero_lt_one hM1)
    refine ⟨?_, ?_, ?_⟩
    · rw [hmape]
      constructor
      · intro h
        rw [List.map_eq_nil_iff] at h
        exact absurd h hc
      · intro h
        exact absurd ((counter_eq_nil_iff _).2 h) hc
    · intro p hp
      rw [hmape] at hp
      rcases List.mem_map.1 hp with ⟨q, hq, hfq⟩
      rw [← hfq]
      constructor
      · exact div_pos
          (Nat.cast_pos.2 (lt_of_lt_of_le Nat.zero_lt_one (counter_pos q hq))) hMpos
      · exact (div_le_one hMpos).2
          (Nat.cast_le.2 (le_pyMax (List.mem_map.2 ⟨q, hq, rfl⟩)))
    · intro _
      rw [hmape]
      refine ⟨(qM.1, (qM.2 : ℚ) /
        ((pyMax (((counter (surviving text stops)).map (fun q => q.2)) : List ℕ) : ℕ) : ℚ)),
        List.mem_map.2 ⟨qM, hqM, rfl⟩, ?_⟩
      show (qM.2 : ℚ) /
        ((pyMax (((counter (surviving text stops)).map (fun q => q.2)) : List ℕ) : ℕ) : ℚ) = 1
      rw [hqMeq]
      exact div_self (ne_of_gt hMpos)

theorem C10_witness :
    ∃ p ∈ process_raw_text "aaa bbb aaa" [], p.2 = 1 :=
  (C10_process_values "aaa bbb aaa" []).2.2 (by decide)

end WC
